import Mathlib

/-
Verification development for the serial-listener core
(src/src/serial_listener.cc and src/src/impl/unix.cc).

The C++ code is embedded shallowly:
- Tokens and byte buffers are List Char.
- A C++ exception is either a class derived from std::exception (CxxExc.std)
  or anything else, in particular the string literals (const char*) thrown
  by Serial::SerialImpl in unix.cc (CxxExc.strLit).  This distinction matters
  because SerialListener::listen catches only (std::exception &).
- A filter (serial_listener.cc, class Filter) is a comparator plus a callback;
  the callback itself is irrelevant to enqueue order, so a filter is modelled
  by an identity (Nat) and its comparator, which may throw.
- The dispatch queue is the list of (filter id, token) pairs pushed, in push
  order (callback_queue.push calls in SerialListener::filter).
-/

/-- A C++ exception: either an object of a class derived from std::exception
(carrying its what() message), or a thrown string literal (const char*), which
is NOT a std::exception and is not caught by a catch (std::exception) clause. -/
inductive CxxExc
  | std (msg : String)
  | strLit (msg : String)
deriving DecidableEq

/-- A registered filter (serial_listener.cc, class Filter): an identity used to
track which filter a dispatch-queue entry belongs to, and the user-supplied
comparator, which is arbitrary user code and may throw. -/
structure Filt where
  id : Nat
  comp : List Char → Except CxxExc Bool

/-- A dispatch-queue entry: (filter id, token), as pushed by
SerialListener::filter via callback_queue.push(std::make_pair(filter, token)). -/
abbrev Push := Nat × List Char

/-- SerialListener::filter (serial_listener.cc lines 151-164) restricted to the
completed tokens (the caller's token vector minus its last element, which the
loop skips with "if (it == tokens.end()-1) continue").  Returns the entries
pushed onto the dispatch queue, in push order, and the exception thrown by the
comparator if one throws: there is no try/catch in this function, so the first
throw stops the iteration (entries already pushed remain pushed). -/
def matchesRun (f : Filt) : List (List Char) → List Push × Option CxxExc
  | [] => ([], none)
  | t :: ts =>
    match f.comp t with
    | .error e => ([], some e)
    | .ok b =>
      let r := matchesRun f ts
      if b then ((f.id, t) :: r.1, r.2) else r

/-- The match sweep of SerialListener::filterNewTokens (serial_listener.cc
lines 139-149): iterate over the registered filters in registration order and,
for each, run SerialListener::filter over the completed tokens.  A comparator
throw propagates (no try/catch), aborting the sweep: later filters are not
evaluated, but entries pushed before the throw remain on the queue. -/
def sweepRun : List Filt → List (List Char) → List Push × Option CxxExc
  | [], _ => ([], none)
  | f :: fs, toks =>
    let r := matchesRun f toks
    match r.2 with
    | some e => (r.1, some e)
    | none =>
      let r2 := sweepRun fs toks
      (r.1 ++ r2.1, r2.2)

/-- Result of one call to SerialListener::filterNewTokens: the dispatch-queue
entries pushed, the value of data_buffer afterwards, and the exception that
propagated out, if any. -/
structure SweepOut where
  pushes : List Push
  newBuf : List Char
  err : Option CxxExc

/-- SerialListener::filterNewTokens (serial_listener.cc lines 139-149).
tokens is the vector produced by the tokenizer (its last element is the
leftover fragment); buf is the value of data_buffer at the call (the caller,
listen(), has already appended the newly read bytes).  On normal completion the
function stores the last token back into data_buffer
("this->data_buffer = (*new_tokens.back())"); if a comparator throws, that
assignment is never reached and data_buffer keeps the caller's appended value. -/
def filterNewTokensRun (fs : List Filt) (tokens : List (List Char))
    (buf : List Char) : SweepOut :=
  let r := sweepRun fs tokens.dropLast
  match r.2 with
  | some e => ⟨r.1, buf, some e⟩
  | none => ⟨r.1, tokens.getLastD [], none⟩

/-- The serial port as SerialListener sees it: only isOpen() matters to
startListening (serial_listener.cc lines 82-101). -/
structure PortM where
  isOpen : Bool
deriving DecidableEq

/-- The fields of SerialListener that startListening / stopListening /
removeAllFilters touch: the listening flag, the stored serial_port_ pointer,
data_buffer, the filter registry, and the dispatch queue. -/
structure EngineState where
  listening : Bool
  port : Option PortM
  data_buffer : List Char
  filters : List Filt
  queue : List Push

/-- SerialListener::startListening (serial_listener.cc lines 82-101).  Returns
the state after the call together with the exception thrown, if any.  Note the
order in the source: the "Already listening." check comes first; then
listening is set to true and serial_port_ is stored; only then is isOpen()
checked, so the "Serial port not open." throw leaves listening == true and the
port stored.  Thread creation is not modelled. -/
def startListening (st : EngineState) (p : PortM) :
    EngineState × Option CxxExc :=
  if st.listening then (st, some (.std "Already listening."))
  else
    let st1 := { st with listening := true, port := some p }
    if p.isOpen then (st1, none)
    else (st1, some (.std "Serial port not open."))

/-- SerialListener::removeAllFilters (serial_listener.cc lines 234-239):
filters.clear() followed by callback_queue.clear(). -/
def removeAllFilters (st : EngineState) : EngineState :=
  { st with filters := [], queue := [] }

/-- SerialListener::stopListening (serial_listener.cc lines 103-116): clear the
listening flag, join both threads (not modelled; the model is the state after
both joins), reset data_buffer to the empty string, null the port pointer, and
call removeAllFilters. -/
def stopListening (st : EngineState) : EngineState :=
  removeAllFilters
    { st with listening := false, data_buffer := [], port := none }

/-- SerialListener::removeFilter (serial_listener.cc lines 218-222):
filters.erase(std::find(filters.begin(), filters.end(), filter_ptr)).
The registry is modelled by the list of filter identities (FilterPtr values).
std::find returns the iterator to the first occurrence, or end() when the
handle is absent; std::vector::erase(end()) is undefined behavior, modelled
here as none.  When the handle is present, the first occurrence is erased. -/
def removeFilterM (filters : List Nat) (h : Nat) : Option (List Nat) :=
  if h ∈ filters then some (filters.erase h) else none

/-- One iteration of the consumer loop in SerialListener::callback
(serial_listener.cc lines 59-80), as observed by the shared listening flag:
the value the loop condition "while (this->listening)" reads, the result of
callback_queue.timed_wait_and_pop, and the value the guard
"if (this->listening)" between the pop and the callback invocation reads. -/
structure CbIter where
  flagAtLoop : Bool
  popped : Option Push
  flagAtInvoke : Bool

/-- The consumer loop of SerialListener::callback (serial_listener.cc lines
59-80) over a schedule of iterations: returns the entries whose callbacks are
actually invoked, in invocation order.  The loop exits when the loop condition
reads false; a popped entry is invoked only if the re-check of the listening
flag between the pop and the invocation reads true. -/
def callbackRun : List CbIter → List Push
  | [] => []
  | it :: rest =>
    if it.flagAtLoop then
      (match it.popped with
       | some e => if it.flagAtInvoke then [e] else []
       | none => []) ++ callbackRun rest
    else []

/-- C1 counterexample input: two always-matching filters, registered in this
order (ids 1 then 2). -/
def c1Filt1 : Filt := ⟨1, fun _ => .ok true⟩

/-- C1 counterexample input: the second registered filter, id 2. -/
def c1Filt2 : Filt := ⟨2, fun _ => .ok true⟩

/-- The ordering property asserted by C1 (token-major): reading the dispatch
queue entries in push order, the token index never decreases, and among
entries for the same token the filter id never decreases.  tIdx maps a token
to its position among the completed tokens of the cycle. -/
def tokenMajorOrder (tIdx : List Char → Nat) (ps : List Push) : Prop :=
  List.Pairwise
    (fun p q => tIdx p.2 < tIdx q.2 ∨ (tIdx p.2 = tIdx q.2 ∧ p.1 ≤ q.1)) ps

/-- The outcome of one select iteration inside Serial::SerialImpl::read
(unix.cc lines 210-252): select was interrupted (EINTR), select failed
(r == -1 with errno other than EINTR, upon which the code calls perror and
exit(EXIT_FAILURE)), select timed out (fd not set, the loop breaks), or the fd
was ready and ::read(fd_, buf, 1024) returned the given bytes (at most 1024;
zero bytes means the device disconnected). -/
inductive SelEvent
  | eintr
  | selErr
  | timeout
  | ready (bytes : List Char)
deriving DecidableEq

/-- What a call to Serial::SerialImpl::read produces: a returned byte string,
a thrown C++ exception, or direct process termination via exit(EXIT_FAILURE). -/
inductive ReadResult
  | ok (data : List Char)
  | thrown (e : CxxExc)
  | procExit
deriving DecidableEq

/-- The message of the string literal thrown by Serial::SerialImpl::read when
select reports readiness but ::read returns no data (unix.cc line 243). -/
def devGoneMsg : String :=
  "SerialException(device reports readiness to read but returned no data (device disconnected?))"

/-- The while loop of Serial::SerialImpl::read (unix.cc lines 218-250): loop
while fewer than size bytes are collected; each iteration is driven by one
SelEvent.  On ready, ::read(fd_, buf, 1024) appends up to 1024 bytes with no
regard to how many bytes are still missing from size.  An exhausted event list
ends the loop with the bytes collected so far (as a timeout would). -/
def readLoop (size : Nat) : List SelEvent → List Char → ReadResult
  | evs, msg =>
    if size ≤ msg.length then .ok msg
    else
      match evs with
      | [] => .ok msg
      | .eintr :: rest => readLoop size rest msg
      | .selErr :: _ => .procExit
      | .timeout :: _ => .ok msg
      | .ready bytes :: rest =>
        if bytes.length = 0 then .thrown (.strLit devGoneMsg)
        else readLoop size rest (msg ++ bytes)

/-- Serial::SerialImpl::read (unix.cc lines 210-252): throws the string
literal "PortNotOpenError()" when the port is not open, otherwise runs the
select/read loop starting from an empty message. -/
def readImpl (portOpen : Bool) (size : Nat) (evs : List SelEvent) : ReadResult :=
  if portOpen then readLoop size evs []
  else .thrown (.strLit "PortNotOpenError()")

/-- The outcome of one read cycle of the producer loop, i.e. what
this->serial_port_->read(...) did on that cycle. -/
inductive ReadOutcome
  | ok (bytes : List Char)
  | thrown (e : CxxExc)
  | procExit

/-- The state the producer loop of SerialListener::listen works on: the
listening flag as the loop condition reads it, data_buffer, the dispatch
queue contents (entries pushed so far), and the logs of handler invocations:
messages passed to handle_exc and to warn. -/
structure ListenSt where
  listening : Bool
  buffer : List Char
  queue : List Push
  excCalls : List String
  warnCalls : List String

/-- How the producer loop of SerialListener::listen ended: the loop condition
read listening == false; the modelled read outcomes were exhausted with the
loop still live; a std::exception was caught by the catch clause wrapping the
loop (handle_exc was called and the thread returned); a non-std::exception
(thrown string literal) escaped the catch clause, terminating the process; or
exit(EXIT_FAILURE) was called inside read. -/
inductive ListenEnd
  | stopped
  | ranOut
  | caught (msg : String)
  | escaped (msg : String)
  | procExit
deriving DecidableEq

/-- The producer loop of SerialListener::listen (serial_listener.cc lines
166-189), driven by the tokenizer tok (pluggable, this->tokenize), the
registered filters, and one ReadOutcome per cycle.  Zero bytes read skips the
cycle.  Otherwise the new bytes are appended to data_buffer, the tokenizer is
run, and filterNewTokens is called.  The try block wraps the whole loop and
catches only std::exception subclasses, calling handle_exc once and ending the
loop; any other thrown value escapes the thread.  Nothing in this function
(or in the catch clause) ever writes the listening flag or calls warn. -/
def listenLoop (tok : List Char → List (List Char)) (fs : List Filt) :
    List ReadOutcome → ListenSt → ListenSt × ListenEnd
  | rs, st =>
    if st.listening then
      match rs with
      | [] => (st, .ranOut)
      | r :: rest =>
        match r with
        | .procExit => (st, .procExit)
        | .thrown (.std m) =>
          ({ st with excCalls := st.excCalls ++ [m] }, .caught m)
        | .thrown (.strLit m) => (st, .escaped m)
        | .ok bytes =>
          if bytes.length = 0 then listenLoop tok fs rest st
          else
            let res := filterNewTokensRun fs (tok (st.buffer ++ bytes))
              (st.buffer ++ bytes)
            let st1 := { st with buffer := res.newBuf,
                                 queue := st.queue ++ res.pushes }
            match res.err with
            | none => listenLoop tok fs rest st1
            | some (.std m) =>
              ({ st1 with excCalls := st1.excCalls ++ [m] }, .caught m)
            | some (.strLit m) => (st1, .escaped m)
    else (st, .stopped)

/-- A fresh SerialListener engine: not listening, no port, empty buffer, no
filters, empty queue (the constructor state relevant to startListening). -/
def freshEngine : EngineState := ⟨false, none, [], [], []⟩

/-- A serial port whose isOpen() returns false. -/
def closedPort : PortM := ⟨false⟩

/-- C2 counterexample input: a filter whose comparator throws a
std::exception for every token. -/
def c2ThrowFilt : Filt := ⟨1, fun _ => .error (.std "boom")⟩

/-- A filter (id 2) whose comparator matches every token without throwing. -/
def alwaysFilt : Filt := ⟨2, fun _ => .ok true⟩

/-- An initial producer-loop state: listening, empty buffer, empty queue, no
handler calls recorded. -/
def listenSt0 : ListenSt := ⟨true, [], [], [], []⟩

/-- Boolean prefix test on character lists: isPre d s is true exactly when d
is a prefix of s. -/
def isPre : List Char → List Char → Bool
  | [], _ => true
  | _ :: _, [] => false
  | a :: as, b :: bs => if a = b then isPre as bs else false

/-- Leftmost occurrence of the delimiter d in s: returns (pre, post) where pre
is the text before the first occurrence and post the text after it, or none
when d does not occur in s.  For d = [] the first (empty) occurrence is at the
front. -/
def splitOnce (d : List Char) : List Char → Option (List Char × List Char)
  | [] => if isPre d [] then some ([], []) else none
  | c :: rest =>
    if isPre d (c :: rest) then some ([], (c :: rest).drop d.length)
    else
      match splitOnce d rest with
      | some (pre, post) => some (c :: pre, post)
      | none => none

/-- Fuel-indexed repeated split: removes leftmost occurrences of d one at a
time, collecting the fragments before each occurrence, until none remains (or
fuel runs out; fuel at least the length of s always suffices for d nonempty). -/
def splitDelimF (d : List Char) : Nat → List Char → List (List Char) × List Char
  | 0, s => ([], s)
  | n + 1, s =>
    match splitOnce d s with
    | none => ([], s)
    | some (pre, post) =>
      let r := splitDelimF d n post
      (pre :: r.1, r.2)

/-- Modelled from the spec: the delimiter tokenizer.  SerialListener's default
tokenizer (delimeter_tokenizer / SerialListener::tokenize, declared in
serial/serial_listener.h, which is not under src/) is, per the spec, a
delimiter-based split on a configurable delimiter sequence in which every
fragment before a delimiter occurrence is a completed token and the final,
possibly-incomplete fragment after the last occurrence is the remainder (the
element the listener stores back into data_buffer); if no delimiter is
present the whole buffer is the remainder and no token is produced.
splitDelim d s returns (completed tokens, remainder). -/
def splitDelim (d s : List Char) : List (List Char) × List Char :=
  splitDelimF d s.length s

/-- The read cycles of SerialListener::listen (serial_listener.cc lines
166-189) restricted to their buffer/tokenizer effect, with the tokenizer
instantiated to the spec-modelled delimiter split: for each chunk read, a
zero-length read skips the cycle; otherwise the chunk is appended to the
carried buffer, the buffer is tokenized, the completed tokens are emitted and
the remainder becomes the carried buffer.  Returns all completed tokens in
order and the final buffer. -/
def listenCycles (d : List Char) :
    List Char → List (List Char) → List (List Char) × List Char
  | buf, [] => ([], buf)
  | buf, chunk :: rest =>
    if chunk.length = 0 then listenCycles d buf rest
    else
      let r := splitDelim d (buf ++ chunk)
      let r2 := listenCycles d r.2 rest
      (r.1 ++ r2.1, r2.2)

/-- A prefix of the empty list is empty. -/
theorem isPre_nil (d : List Char) (h : isPre d [] = true) : d = [] := by
  cases d with
  | nil => rfl
  | cons a as => simp [isPre] at h

/-- A prefix is no longer than the list. -/
theorem isPre_length :
    ∀ d s : List Char, isPre d s = true → d.length ≤ s.length := by
  intro d
  induction d with
  | nil => intro s _; simp
  | cons a as ih =>
    intro s h
    cases s with
    | nil => simp [isPre] at h
    | cons b bs =>
      simp only [isPre] at h
      by_cases hab : a = b
      · rw [if_pos hab] at h
        simpa using ih bs h
      · rw [if_neg hab] at h
        cases h

/-- A prefix d of s is an initial segment: s is d followed by what remains
after dropping d.length characters. -/
theorem isPre_decompose :
    ∀ d s : List Char, isPre d s = true → s = d ++ s.drop d.length := by
  intro d
  induction d with
  | nil => intro s _; simp
  | cons a as ih =>
    intro s h
    cases s with
    | nil => simp [isPre] at h
    | cons b bs =>
      simp only [isPre] at h
      by_cases hab : a = b
      · rw [if_pos hab] at h
        have := ih bs h
        simp only [List.length_cons, List.drop_succ_cons, List.cons_append,
          hab]
        exact congrArg (b :: ·) this
      · rw [if_neg hab] at h
        cases h

/-- A prefix of s is a prefix of s extended on the right. -/
theorem isPre_append :
    ∀ d s y : List Char, isPre d s = true → isPre d (s ++ y) = true := by
  intro d
  induction d with
  | nil => intro s y _; simp [isPre]
  | cons a as ih =>
    intro s y h
    cases s with
    | nil => simp [isPre] at h
    | cons b bs =>
      simp only [isPre] at h ⊢
      by_cases hab : a = b
      · rw [if_pos hab] at h ⊢
        exact ih bs y h
      · rw [if_neg hab] at h
        cases h

/-- A prefix of s ++ y that fits inside s is already a prefix of s. -/
theorem isPre_of_append :
    ∀ d s y : List Char, isPre d (s ++ y) = true → d.length ≤ s.length →
      isPre d s = true := by
  intro d
  induction d with
  | nil => intro s y _ _; rfl
  | cons a as ih =>
    intro s y h hlen
    cases s with
    | nil => simp at hlen
    | cons b bs =>
      simp only [List.cons_append, isPre] at h ⊢
      by_cases hab : a = b
      · rw [if_pos hab] at h ⊢
        exact ih bs y h (by simpa using hlen)
      · rw [if_neg hab] at h
        cases h

/-- Every entry pushed by one filter's pass carries that filter's id. -/
theorem matchesRun_id (f : Filt) :
    ∀ ts, ∀ p ∈ (matchesRun f ts).1, p.1 = f.id := by
  intro ts
  induction ts with
  | nil => intro p hp; simp [matchesRun] at hp
  | cons t ts ih =>
    intro p hp
    unfold matchesRun at hp
    cases hc : f.comp t with
    | error e => simp [hc] at hp
    | ok b =>
      rw [hc] at hp
      by_cases hb : b
      · simp [hb] at hp
        rcases hp with h | h
        · rw [h]
        · exact ih p h
      · simp [hb] at hp
        exact ih p hp

/-- The tokens of the entries pushed by one filter's pass form a sublist of
the completed tokens, in token order. -/
theorem matchesRun_sublist (f : Filt) :
    ∀ ts, List.Sublist ((matchesRun f ts).1.map Prod.snd) ts := by
  intro ts
  induction ts with
  | nil => simp [matchesRun]
  | cons t ts ih =>
    unfold matchesRun
    cases hc : f.comp t with
    | error e => simp
    | ok b =>
      by_cases hb : b
      · simpa [hb] using List.Sublist.cons₂ t ih
      · simpa [hb] using List.Sublist.cons t ih

/-- Every entry pushed by the match sweep carries the id of a registered
filter. -/
theorem sweep_ids :
    ∀ fs toks, ∀ p ∈ (sweepRun fs toks).1, p.1 ∈ fs.map Filt.id := by
  intro fs
  induction fs with
  | nil => intro toks p hp; simp [sweepRun] at hp
  | cons f fs ih =>
    intro toks p hp
    cases he : (matchesRun f toks).2 with
    | some e =>
      simp only [sweepRun, he] at hp
      simp only [List.map_cons, List.mem_cons]
      exact Or.inl (matchesRun_id f toks p hp)
    | none =>
      simp only [sweepRun, he, List.mem_append] at hp
      simp only [List.map_cons, List.mem_cons]
      rcases hp with h | h
      · exact Or.inl (matchesRun_id f toks p h)
      · exact Or.inr (ih toks p h)

/-- Within one filter's pass, pushed entries appear in token order. -/
theorem matchesRun_pairwise (tIdx : List Char → Nat) (f : Filt)
    (ts : List (List Char))
    (ht : List.Pairwise (fun a b => tIdx a < tIdx b) ts) :
    List.Pairwise (fun p q : Push => tIdx p.2 < tIdx q.2)
      (matchesRun f ts).1 := by
  have h := List.Pairwise.sublist (matchesRun_sublist f ts) ht
  rw [List.pairwise_map] at h
  exact h

/-- The full match sweep enqueues filter-major: reading the dispatch queue in
push order, the filter id never decreases, and among entries of the same
filter the token position never decreases. -/
theorem sweep_pairwise (tIdx : List Char → Nat) :
    ∀ fs toks, List.Pairwise (fun a b : Filt => a.id < b.id) fs →
      List.Pairwise (fun a b => tIdx a < tIdx b) toks →
      List.Pairwise
        (fun p q : Push => p.1 < q.1 ∨ (p.1 = q.1 ∧ tIdx p.2 ≤ tIdx q.2))
        (sweepRun fs toks).1 := by
  intro fs
  induction fs with
  | nil => intro toks _ _; simp [sweepRun]
  | cons f fs ih =>
    intro toks hfs htk
    have hone :
        List.Pairwise
          (fun p q : Push => p.1 < q.1 ∨ (p.1 = q.1 ∧ tIdx p.2 ≤ tIdx q.2))
          (matchesRun f toks).1 := by
      refine List.Pairwise.imp_of_mem ?_ (matchesRun_pairwise tIdx f toks htk)
      intro a b ha hb hr
      exact Or.inr ⟨by rw [matchesRun_id f toks a ha, matchesRun_id f toks b hb],
        Nat.le_of_lt hr⟩
    cases he : (matchesRun f toks).2 with
    | some e => simpa only [sweepRun, he] using hone
    | none =>
      simp only [sweepRun, he]
      rw [List.pairwise_append]
      refine ⟨hone, ih toks hfs.of_cons htk, ?_⟩
      intro a ha b hb
      obtain ⟨g, hg, hgid⟩ := List.mem_map.mp (sweep_ids fs toks b hb)
      left
      rw [matchesRun_id f toks a ha, ← hgid]
      exact (List.pairwise_cons.mp hfs).1 g hg

/-- Appending further filters to an error-free sweep extends its pushes on the
right: the sweep over fs1 ++ gs pushes fs1's matches first, then behaves as
the sweep over gs. -/
theorem sweep_append_ok :
    ∀ fs1 gs toks ps1, sweepRun fs1 toks = (ps1, none) →
      sweepRun (fs1 ++ gs) toks
        = (ps1 ++ (sweepRun gs toks).1, (sweepRun gs toks).2) := by
  intro fs1
  induction fs1 with
  | nil =>
    intro gs toks ps1 h
    simp only [sweepRun] at h
    cases h
    simp [sweepRun]
  | cons f fs1 ih =>
    intro gs toks ps1 h
    cases he : (matchesRun f toks).2 with
    | some e => simp [sweepRun, he] at h
    | none =>
      cases hs : sweepRun fs1 toks with
      | mk a b =>
        simp only [sweepRun, he, hs] at h
        have h1 : (matchesRun f toks).1 ++ a = ps1 := congrArg Prod.fst h
        have h2 : b = none := congrArg Prod.snd h
        subst h2
        simp only [List.cons_append, sweepRun, he, List.append_eq,
          ih gs toks a hs, ← h1, List.append_assoc]

/-- A nonempty delimiter does not occur in the empty buffer. -/
theorem splitOnce_nil (d : List Char) (hd : d ≠ []) : splitOnce d [] = none := by
  cases d with
  | nil => cases hd rfl
  | cons a as => simp [splitOnce, isPre]

/-- Where the delimiter occurs, the buffer decomposes as pre ++ d ++ post. -/
theorem splitOnce_decompose (d : List Char) :
    ∀ s pre post, splitOnce d s = some (pre, post) → s = pre ++ d ++ post := by
  intro s
  induction s with
  | nil =>
    intro pre post h
    simp only [splitOnce] at h
    by_cases hp : isPre d [] = true
    · rw [if_pos hp] at h
      have hd := isPre_nil d hp
      cases h
      simp [hd]
    · rw [if_neg hp] at h
      cases h
  | cons c rest ih =>
    intro pre post h
    simp only [splitOnce] at h
    by_cases hp : isPre d (c :: rest) = true
    · rw [if_pos hp] at h
      cases h
      simpa using isPre_decompose d (c :: rest) hp
    · rw [if_neg hp] at h
      cases hso : splitOnce d rest with
      | none => rw [hso] at h; cases h
      | some pq =>
        rw [hso] at h
        cases pq with
        | mk pre0 post0 =>
          cases h
          simp only [List.cons_append]
          exact congrArg (c :: ·) (ih _ _ hso)

/-- Extending the buffer on the right does not move the leftmost occurrence:
if d occurs in x with pre before and post after, it occurs in x ++ y at the
same place, with post ++ y after. -/
theorem splitOnce_append (d : List Char) :
    ∀ x y pre post, splitOnce d x = some (pre, post) →
      splitOnce d (x ++ y) = some (pre, post ++ y) := by
  intro x
  induction x with
  | nil =>
    intro y pre post h
    simp only [splitOnce] at h
    by_cases hp : isPre d [] = true
    · rw [if_pos hp] at h
      cases h
      have hd := isPre_nil d hp
      subst hd
      cases y with
      | nil => simp [splitOnce, isPre]
      | cons c rest => simp [splitOnce, isPre]
    · rw [if_neg hp] at h
      cases h
  | cons c rest ih =>
    intro y pre post h
    simp only [splitOnce] at h
    by_cases hp : isPre d (c :: rest) = true
    · rw [if_pos hp] at h
      cases h
      have hlen := isPre_length d (c :: rest) hp
      have hp2 := isPre_append d (c :: rest) y hp
      simp only [List.cons_append] at hp2 ⊢
      simp only [splitOnce, hp2, if_true]
      rw [← List.cons_append, List.drop_append_of_le_length hlen]
    · rw [if_neg hp] at h
      cases hso : splitOnce d rest with
      | none => rw [hso] at h; cases h
      | some pq =>
        rw [hso] at h
        cases pq with
        | mk pre0 post0 =>
          cases h
          have hdec := splitOnce_decompose d rest _ _ hso
          have hdlen : d.length ≤ (c :: rest).length := by
            have hr : d.length ≤ rest.length := by
              rw [hdec]
              simp only [List.length_append]
              omega
            exact Nat.le_succ_of_le hr
          have hp3 : ¬ isPre d (c :: (rest ++ y)) = true := by
            intro hcon
            exact hp (isPre_of_append d (c :: rest) y (by simpa using hcon)
              hdlen)
          simp only [List.cons_append, List.append_eq, splitOnce,
            ih y _ _ hso]
          rw [if_neg hp3]

/-- When the delimiter does not occur, the repeated split yields no token and
the whole buffer as remainder, for any fuel. -/
theorem splitDelimF_of_none (d : List Char) (s : List Char)
    (h : splitOnce d s = none) :
    ∀ n, splitDelimF d n s = ([], s) := by
  intro n
  cases n with
  | zero => rfl
  | succ n => simp [splitDelimF, h]

/-- The delimiter does occur in a buffer strictly longer than the remainder it
leaves: post is shorter than s by at least the delimiter's length. -/
theorem splitOnce_post_lt (d : List Char) (hd : d ≠ []) (s pre post : List Char)
    (h : splitOnce d s = some (pre, post)) : post.length < s.length := by
  have hdec := splitOnce_decompose d s pre post h
  have : 1 ≤ d.length := by
    cases d with
    | nil => cases hd rfl
    | cons a as => simp
  rw [hdec]
  simp only [List.length_append]
  omega

/-- Fuel irrelevance: any fuel at least the buffer length computes the same
repeated split (delimiter nonempty). -/
theorem splitDelimF_congr (d : List Char) (hd : d ≠ []) :
    ∀ n m s, s.length ≤ n → s.length ≤ m →
      splitDelimF d n s = splitDelimF d m s := by
  intro n
  induction n with
  | zero =>
    intro m s hn _
    have hs : s = [] := by
      cases s with
      | nil => rfl
      | cons c cs => simp at hn
    subst hs
    cases m with
    | zero => rfl
    | succ m => simp [splitDelimF, splitOnce_nil d hd]
  | succ n ih =>
    intro m s hn hm
    cases hso : splitOnce d s with
    | none => rw [splitDelimF_of_none d s hso, splitDelimF_of_none d s hso]
    | some pq =>
      cases pq with
      | mk pre post =>
        have hslen : 1 ≤ s.length := by
          cases s with
          | nil => rw [splitOnce_nil d hd] at hso; cases hso
          | cons c cs => simp
        cases m with
        | zero => omega
        | succ m =>
          have hpost := splitOnce_post_lt d hd s pre post hso
          simp only [splitDelimF, hso]
          rw [ih m post (by omega) (by omega)]

/-- No occurrence means no tokens: the wrapper form. -/
theorem splitDelim_of_none (d s : List Char) (h : splitOnce d s = none) :
    splitDelim d s = ([], s) :=
  splitDelimF_of_none d s h s.length

/-- Unfolding the wrapper at an occurrence: the fragment before the leftmost
occurrence is the first token, and the rest of the split works on post. -/
theorem splitDelim_of_some (d : List Char) (hd : d ≠ []) (s pre post : List Char)
    (h : splitOnce d s = some (pre, post)) :
    splitDelim d s = (pre :: (splitDelim d post).1, (splitDelim d post).2) := by
  have hpost := splitOnce_post_lt d hd s pre post h
  obtain ⟨k, hk⟩ : ∃ k, s.length = k + 1 := ⟨s.length - 1, by omega⟩
  unfold splitDelim
  rw [hk]
  simp only [splitDelimF, h]
  rw [splitDelimF_congr d hd k post.length post (by omega) (Nat.le_refl _)]

/-- The remainder left by the repeated split contains no further occurrence of
the delimiter (auxiliary, by bound on the buffer length). -/
theorem splitDelim_rem_aux (d : List Char) (hd : d ≠ []) :
    ∀ n s, s.length ≤ n → splitOnce d (splitDelim d s).2 = none := by
  intro n
  induction n with
  | zero =>
    intro s hn
    have hs : s = [] := by
      cases s with
      | nil => rfl
      | cons c cs => simp at hn
    subst hs
    rw [splitDelim_of_none d [] (splitOnce_nil d hd)]
    exact splitOnce_nil d hd
  | succ n ih =>
    intro s hn
    cases hso : splitOnce d s with
    | none => rw [splitDelim_of_none d s hso]; exact hso
    | some pq =>
      cases pq with
      | mk pre post =>
        rw [splitDelim_of_some d hd s pre post hso]
        exact ih post (by
          have := splitOnce_post_lt d hd s pre post hso
          omega)

/-- The remainder left by the repeated split contains no further occurrence of
the delimiter. -/
theorem splitDelim_rem (d : List Char) (hd : d ≠ []) (s : List Char) :
    splitOnce d (splitDelim d s).2 = none :=
  splitDelim_rem_aux d hd s.length s (Nat.le_refl _)

/-- Appending input on the right refines the split: splitting x ++ y yields
the tokens of x followed by the tokens of (remainder of x) ++ y, with the
remainder of the latter (auxiliary, by bound on the length of x). -/
theorem splitDelim_append_aux (d : List Char) (hd : d ≠ []) :
    ∀ n x y, x.length ≤ n →
      splitDelim d (x ++ y)
        = ((splitDelim d x).1 ++ (splitDelim d ((splitDelim d x).2 ++ y)).1,
           (splitDelim d ((splitDelim d x).2 ++ y)).2) := by
  intro n
  induction n with
  | zero =>
    intro x y hn
    have hx : x = [] := by
      cases x with
      | nil => rfl
      | cons c cs => simp at hn
    subst hx
    rw [splitDelim_of_none d [] (splitOnce_nil d hd)]
    simp
  | succ n ih =>
    intro x y hn
    cases hso : splitOnce d x with
    | none =>
      rw [splitDelim_of_none d x hso]
      simp
    | some pq =>
      cases pq with
      | mk pre post =>
        have hx := splitDelim_of_some d hd x pre post hso
        have hxy := splitDelim_of_some d hd (x ++ y) pre (post ++ y)
          (splitOnce_append d x y pre post hso)
        have hpost := splitOnce_post_lt d hd x pre post hso
        have ihp := ih post y (by omega)
        simp only [hxy, hx, ihp, List.cons_append]

/-- Appending input on the right refines the split. -/
theorem splitDelim_append (d : List Char) (hd : d ≠ []) (x y : List Char) :
    splitDelim d (x ++ y)
      = ((splitDelim d x).1 ++ (splitDelim d ((splitDelim d x).2 ++ y)).1,
         (splitDelim d ((splitDelim d x).2 ++ y)).2) :=
  splitDelim_append_aux d hd x.length x y (Nat.le_refl _)

/-- Feeding chunks one read cycle at a time, starting from a delimiter-free
carried buffer, is the same as splitting the buffer followed by all the
chunks at once. -/
theorem listenCycles_eq (d : List Char) (hd : d ≠ []) :
    ∀ chunks buf, splitOnce d buf = none →
      listenCycles d buf chunks = splitDelim d (buf ++ chunks.flatten) := by
  intro chunks
  induction chunks with
  | nil =>
    intro buf hbuf
    simp only [listenCycles, List.flatten, List.append_nil]
    rw [splitDelim_of_none d buf hbuf]
  | cons chunk rest ih =>
    intro buf hbuf
    by_cases hz : chunk.length = 0
    · have hc : chunk = [] := List.length_eq_zero.mp hz
      subst hc
      simp only [listenCycles, if_pos rfl]
      rw [ih buf hbuf]
      simp
    · simp only [listenCycles, hz, if_false]
      have hrem := splitDelim_rem d hd (buf ++ chunk)
      rw [ih (splitDelim d (buf ++ chunk)).2 hrem]
      have hmain := splitDelim_append d hd (buf ++ chunk) rest.flatten
      simp only [List.flatten_cons, ← List.append_assoc]
      rw [hmain]

/-- C9: chunk-invariance of the listener's read cycle with the spec-modelled
delimiter tokenizer.  For every nonempty delimiter and every partition of the
input into chunks, feeding the chunks through the read cycle one at a time
(skipping empty reads, appending each chunk to the carried remainder,
tokenizing, and carrying the new remainder forward) yields exactly the
completed tokens, in order, of tokenizing the whole concatenated input at
once, with the same final remainder. -/
theorem c9_chunk_invariance (d : List Char) (chunks : List (List Char))
    (hd : d ≠ []) :
    listenCycles d [] chunks = splitDelim d chunks.flatten := by
  have h := listenCycles_eq d hd chunks [] (splitOnce_nil d hd)
  simpa using h

/-- C9 witness: the spec's own scenario on the default delimiter "\r": chunks
"AB\rCD" then "EF\r" produce the tokens "AB" and "CDEF" with empty remainder,
the same as splitting "AB\rCDEF\r" at once. -/
theorem c9_chunk_invariance_witness :
    (['\r'] ≠ ([] : List Char)) ∧
    listenCycles ['\r'] [] [['A','B','\r','C','D'], ['E','F','\r']]
      = splitDelim ['\r'] [['A','B','\r','C','D'], ['E','F','\r']].flatten :=
  ⟨by decide, c9_chunk_invariance ['\r'] [['A','B','\r','C','D'],
    ['E','F','\r']] (by decide)⟩

/-- Sanity check of the spec scenario (section 8): with delimiter "\r", the
chunks "AB\rCD" and "EF\r" produce exactly the tokens "AB" and "CDEF", and
the remainder after the second chunk is empty. -/
theorem spec_scenario_check :
    listenCycles ['\r'] [] [['A','B','\r','C','D'], ['E','F','\r']]
      = ([['A','B'], ['C','D','E','F']], []) := by
  decide

/-- C1 (counterexample): with two always-matching filters registered in order
(ids 1, 2) and one read cycle completing tokens "a" and "bb" (last vector
element is the leftover "r"), the code pushes
(1,a), (1,bb), (2,a), (2,bb): SerialListener::filterNewTokens iterates the
FILTERS in the outer loop and the tokens in the inner one, so both matches of
filter 1 precede any match of filter 2, and the push order is not token-major
as the claim states (the match (1,bb) for token index 1 is pushed before the
match (2,a) for token index 0). -/
theorem c1_counterexample :
    (filterNewTokensRun [c1Filt1, c1Filt2] [['a'], ['b','b'], ['r']] []).pushes
      = [(1, ['a']), (1, ['b','b']), (2, ['a']), (2, ['b','b'])] ∧
    ¬ tokenMajorOrder List.length
        [(1, ['a']), (1, ['b','b']), (2, ['a']), (2, ['b','b'])] := by
  refine ⟨rfl, ?_⟩
  unfold tokenMajorOrder
  decide

/-- C2 (counterexample): with filter 1 throwing a std::exception "boom" on
every token and filter 2 (registered after it) matching every token, the match
sweep over the single completed token "a" aborts with the exception: filter 2
is never evaluated and its match (2, "a") is never pushed, contradicting the
claim that a predicate exception is treated as a non-match for that filter
only and that the sweep continues with the remaining filters. -/
theorem c2_counterexample :
    sweepRun [c2ThrowFilt, alwaysFilt] [['a']]
      = ([], some (CxxExc.std "boom")) ∧
    (2, ['a']) ∉ (sweepRun [c2ThrowFilt, alwaysFilt] [['a']]).1 := by
  refine ⟨rfl, ?_⟩
  intro h
  simp [sweepRun, matchesRun, c2ThrowFilt] at h

/-- C3: on a disconnected device, Serial::SerialImpl::read throws a string
literal (a const char*, not a std::exception), and SerialListener::listen's
catch (std::exception) clause does not catch it: the producer loop ends with
the exception escaping the thread (terminating the process), handle_exc and
warn are never called, and the listening flag is untouched (no transition
toward Stopping).  Moreover, when select itself fails, read calls perror and
exit(EXIT_FAILURE), terminating the process directly.  This contradicts the
claim that every byte-source error is caught, routed to the configured
handler, and moves the engine toward Stopping without crashing the process. -/
theorem c3_device_error_escapes :
    readImpl true 5 [SelEvent.ready []] = ReadResult.thrown (.strLit devGoneMsg) ∧
    listenLoop (fun s => [s]) [] [ReadOutcome.thrown (.strLit devGoneMsg)] listenSt0
      = (listenSt0, ListenEnd.escaped devGoneMsg) ∧
    readImpl true 5 [SelEvent.selErr] = ReadResult.procExit ∧
    listenLoop (fun s => [s]) [] [ReadOutcome.procExit] listenSt0
      = (listenSt0, ListenEnd.procExit) := by
  refine ⟨rfl, rfl, rfl, rfl⟩

/-- C4: calling startListening on a fresh engine with a port that is not open
does throw synchronously ("Serial port not open."), but the engine state is
NOT unchanged: the code sets listening = true and stores the port pointer
before checking isOpen(), so after the failed call the listening flag is true
(and a subsequent startListening would fail with "Already listening."),
contradicting the claim that the state is the same as before the call. -/
theorem c4_failed_start_mutates :
    startListening freshEngine closedPort
      = ({ freshEngine with listening := true, port := some closedPort },
         some (CxxExc.std "Serial port not open.")) ∧
    ({ freshEngine with listening := true, port := some closedPort }).listening
      ≠ freshEngine.listening := by
  exact ⟨rfl, by decide⟩

/-- C5: SerialListener::removeFilter erases the result of std::find without
checking it against end().  Removing a registered handle (here 1 from the
registry [1, 2]) erases its first occurrence; removing a handle that is not in
the registry (here 3) makes std::find return end() and the code call
std::vector::erase(end()), which is undefined behavior (modelled as none), not
the silent no-op the claim states. -/
theorem c5_remove_missing_ub :
    removeFilterM [1, 2] 1 = some [2] ∧ removeFilterM [1, 2] 3 = none := by
  decide

/-- C6: for every engine state, after SerialListener::stopListening returns,
the filter registry is empty, the dispatch queue holds no pending entries, and
the accumulation buffer is the empty string (stopListening resets data_buffer
and then calls removeAllFilters, which clears both the registry and the
queue). -/
theorem c6_stop_clears (st : EngineState) :
    (stopListening st).filters = [] ∧ (stopListening st).queue = [] ∧
    (stopListening st).data_buffer = [] := by
  refine ⟨rfl, rfl, rfl⟩

/-- C1 (amended): the dispatch-queue entries produced by one call to
SerialListener::filterNewTokens are enqueued filter-major, not token-major:
when the registered filters carry strictly increasing ids (registration
order) and tIdx gives the position of each completed token (the token vector
minus its last element) in the batch, the push order never decreases in
filter id, and among the entries of one filter the token position never
decreases.  In particular all matches of an earlier-registered filter are
enqueued before any match of a later-registered one, across all tokens of the
batch. -/
theorem c1_filter_major (fs : List Filt) (tokens : List (List Char))
    (buf : List Char) (tIdx : List Char → Nat)
    (hfs : List.Pairwise (fun a b : Filt => a.id < b.id) fs)
    (htk : List.Pairwise (fun a b => tIdx a < tIdx b) tokens.dropLast) :
    List.Pairwise
      (fun p q : Push => p.1 < q.1 ∨ (p.1 = q.1 ∧ tIdx p.2 ≤ tIdx q.2))
      (filterNewTokensRun fs tokens buf).pushes := by
  have h := sweep_pairwise tIdx fs tokens.dropLast hfs htk
  cases he : (sweepRun fs tokens.dropLast).2 with
  | some e => simpa only [filterNewTokensRun, he] using h
  | none => simpa only [filterNewTokensRun, he] using h

/-- C1 witness: the amended ordering at the concrete counterexample input:
both filters' ids increase in registration order, the completed tokens "a",
"bb" have increasing positions (indexed here by their lengths), and the
theorem yields the filter-major ordering of the four pushed entries. -/
theorem c1_filter_major_witness :
    List.Pairwise
      (fun p q : Push => p.1 < q.1 ∨ (p.1 = q.1 ∧ p.2.length ≤ q.2.length))
      (filterNewTokensRun [c1Filt1, c1Filt2] [['a'], ['b','b'], ['r']]
        []).pushes :=
  c1_filter_major [c1Filt1, c1Filt2] [['a'], ['b','b'], ['r']] [] List.length
    (by decide) (by decide)

/-- C2 (amended): a predicate (comparator) exception is not caught per filter:
it aborts the match sweep for the whole batch.  If the filters before f sweep
cleanly with pushes ps1 and f's own pass throws the std::exception m after
pushing ps, then the sweep over fs1 ++ f :: fs2 pushes exactly ps1 ++ ps and
rethrows m — the filters fs2 registered after f are never evaluated against
any token of the batch.  At the producer loop, the exception propagates out of
filterNewTokens (leaving data_buffer at its appended value), is caught by the
catch (std::exception) clause wrapping the loop, is routed to handle_exc (the
unhandled-exception handler, not the warning handler, whose call log is
untouched), and the producer loop terminates. -/
theorem c2_predicate_throw (fs1 fs2 : List Filt) (f : Filt)
    (completed : List (List Char)) (ps1 ps : List Push) (m : String)
    (tok : List Char → List (List Char)) (rest : List ReadOutcome)
    (st : ListenSt) (bytes rem : List Char)
    (h1 : sweepRun fs1 completed = (ps1, none))
    (h2 : matchesRun f completed = (ps, some (.std m)))
    (hlisten : st.listening = true)
    (hbytes : bytes ≠ [])
    (htok : tok (st.buffer ++ bytes) = completed ++ [rem]) :
    sweepRun (fs1 ++ f :: fs2) completed = (ps1 ++ ps, some (CxxExc.std m)) ∧
    listenLoop tok (fs1 ++ f :: fs2) (ReadOutcome.ok bytes :: rest) st
      = ({ st with buffer := st.buffer ++ bytes,
                   queue := st.queue ++ (ps1 ++ ps),
                   excCalls := st.excCalls ++ [m] },
         ListenEnd.caught m) := by
  have hsweep : sweepRun (fs1 ++ f :: fs2) completed
      = (ps1 ++ ps, some (CxxExc.std m)) := by
    rw [sweep_append_ok fs1 (f :: fs2) completed ps1 h1]
    simp only [sweepRun, h2]
  refine ⟨hsweep, ?_⟩
  have hb0 : ¬ bytes.length = 0 := by
    simpa [List.length_eq_zero] using hbytes
  have hrun : filterNewTokensRun (fs1 ++ f :: fs2) (tok (st.buffer ++ bytes))
      (st.buffer ++ bytes)
      = ⟨ps1 ++ ps, st.buffer ++ bytes, some (CxxExc.std m)⟩ := by
    rw [htok]
    simp only [filterNewTokensRun, List.dropLast_concat, hsweep]
  simp only [listenLoop, hlisten, if_true, hb0, if_false, hrun, ite_false]

/-- C2 witness: the sweep-abort theorem applied at a concrete input: no filter
before the throwing filter, one always-matching filter after it, one completed
token "a", a listening producer with empty buffer reading the bytes "a\r"
that tokenize to the completed token "a" plus an empty leftover. -/
theorem c2_predicate_throw_witness :
    sweepRun [c2ThrowFilt, alwaysFilt] [['a']]
      = ([], some (CxxExc.std "boom")) ∧
    listenLoop (fun s => [s.dropLast, []]) [c2ThrowFilt, alwaysFilt]
      [ReadOutcome.ok ['a', '\r']] listenSt0
      = ({ listenSt0 with buffer := ['a', '\r'],
                          queue := [],
                          excCalls := ["boom"] },
         ListenEnd.caught "boom") := by
  have h := c2_predicate_throw [] [alwaysFilt] c2ThrowFilt [['a']] [] []
    "boom" (fun s => [s.dropLast, []]) [] listenSt0 ['a', '\r'] []
    rfl rfl rfl (by decide) rfl
  simpa using h

/-- C8 (counterexample): with no registered filter, the completed token "a"
matches no filter, yet the read cycle produces no dispatch-queue entry at all
(and throws nothing): SerialListener::filterNewTokens iterates only the
filters vector and contains no call to the default handler, and the
default_filter built in the constructor is never added to that vector nor
consulted, so nothing ever invokes the default-token handler with "a" —
contradicting the claim that tokens matching no registered filter reach it. -/
theorem c8_counterexample :
    (filterNewTokensRun [] [['a'], []] []).pushes = [] ∧
    (filterNewTokensRun [] [['a'], []] []).err = none := by
  exact ⟨rfl, rfl⟩

/-- C8 (amended): the default-token handler is never invoked.  Callbacks run
only for entries popped from the dispatch queue, and every entry pushed by a
read cycle carries the id of a filter in the registry: when the default
filter's id is not among the registered ids (it never is — the constructor
stores default_filter in a separate member and nothing adds it to filters),
no entry references it, and with an empty registry a cycle pushes no entry at
all, so a token matching no filter produces no callback whatsoever. -/
theorem c8_no_default_dispatch (fs : List Filt) (tokens : List (List Char))
    (buf : List Char) (defaultId : Nat)
    (hdef : defaultId ∉ fs.map Filt.id) :
    (∀ p ∈ (filterNewTokensRun fs tokens buf).pushes, p.1 ≠ defaultId) ∧
    (fs = [] → (filterNewTokensRun fs tokens buf).pushes = []) := by
  have hpush : ∀ p ∈ (filterNewTokensRun fs tokens buf).pushes,
      p.1 ∈ fs.map Filt.id := by
    intro p hp
    cases he : (sweepRun fs tokens.dropLast).2 with
    | some e =>
      simp only [filterNewTokensRun, he] at hp
      exact sweep_ids fs tokens.dropLast p hp
    | none =>
      simp only [filterNewTokensRun, he] at hp
      exact sweep_ids fs tokens.dropLast p hp
  refine ⟨fun p hp hid => hdef (hid ▸ hpush p hp), fun hfs => ?_⟩
  subst hfs
  rcases hps : (filterNewTokensRun [] tokens buf).pushes with _ | ⟨p, ps⟩
  · rfl
  · exact absurd (hpush p (by rw [hps]; simp)) (by simp)

/-- C8 witness: one registered filter with id 2 matching the completed token
"a"; with the default filter's id 0 not registered, the single entry pushed
does not reference it. -/
theorem c8_no_default_dispatch_witness :
    (∀ p ∈ (filterNewTokensRun [alwaysFilt] [['a'], []] []).pushes,
      p.1 ≠ 0) ∧
    ([alwaysFilt] = [] →
      (filterNewTokensRun [alwaysFilt] [['a'], []] []).pushes = []) :=
  c8_no_default_dispatch [alwaysFilt] [['a'], []] [] 0 (by decide)

/-- C7 (counterexample): Serial::SerialImpl::read(1) on a port whose device
delivers two bytes in one select round returns both bytes: the loop condition
only checks how many bytes are still missing before calling select, and the
inner ::read always reads up to 1024 bytes and appends everything it got, so
the returned string exceeds the requested size, contradicting the claim that
at most maxBytes bytes are returned. -/
theorem c7_counterexample :
    readImpl true 1 [SelEvent.ready ['a', 'b']] = ReadResult.ok ['a', 'b'] ∧
    ¬ (['a', 'b'].length ≤ 1) := by
  exact ⟨rfl, by decide⟩

/-- Helper bound for the read loop: under the ::read cap of 1024 bytes per
iteration, the collected message can overshoot the requested size by at most
1023 bytes. -/
theorem readLoop_bound (size : Nat) :
    ∀ evs msg data, (∀ b, SelEvent.ready b ∈ evs → b.length ≤ 1024) →
      readLoop size evs msg = ReadResult.ok data →
      data.length ≤ max msg.length (size + 1023) := by
  intro evs
  induction evs with
  | nil =>
    intro msg data _ h
    unfold readLoop at h
    by_cases hle : size ≤ msg.length <;>
      simp only [hle, if_true, if_false, ite_true, ite_false] at h <;>
      cases h <;> exact Nat.le_max_left _ _
  | cons e rest ih =>
    intro msg data hchunks h
    unfold readLoop at h
    by_cases hle : size ≤ msg.length
    · rw [if_pos hle] at h
      cases h
      exact Nat.le_max_left _ _
    · rw [if_neg hle] at h
      cases e with
      | eintr =>
        exact ih msg data (fun b hb => hchunks b (by simp [hb])) h
      | selErr => cases h
      | timeout => cases h; exact Nat.le_max_left _ _
      | ready bytes =>
        have h' : (if bytes.length = 0
            then ReadResult.thrown (.strLit devGoneMsg)
            else readLoop size rest (msg ++ bytes)) = ReadResult.ok data := h
        by_cases hz : bytes.length = 0
        · rw [if_pos hz] at h'; cases h'
        · rw [if_neg hz] at h'
          have hmsg' := ih (msg ++ bytes) data
            (fun b hb => hchunks b (by simp [hb])) h'
          have hb1024 : bytes.length ≤ 1024 := hchunks bytes (by simp)
          have hlt : msg.length < size := Nat.lt_of_not_le hle
          have : (msg ++ bytes).length ≤ size + 1023 := by
            rw [List.length_append]
            omega
          calc data.length ≤ max (msg ++ bytes).length (size + 1023) := hmsg'
            _ ≤ size + 1023 := by omega
            _ ≤ max msg.length (size + 1023) := Nat.le_max_right _ _

/-- C7 (amended): read(maxBytes) can return more than maxBytes bytes, but the
overshoot is bounded: each loop iteration runs only while fewer than maxBytes
bytes have been collected and appends at most the 1024 bytes that
::read(fd_, buf, 1024) can deliver, so a successful read returns at most
maxBytes + 1023 bytes (it may still return fewer than maxBytes, or zero on
timeout). -/
theorem c7_read_bound (size : Nat) (evs : List SelEvent) (data : List Char)
    (hchunks : ∀ b, SelEvent.ready b ∈ evs → b.length ≤ 1024)
    (h : readImpl true size evs = ReadResult.ok data) :
    data.length ≤ size + 1023 := by
  have := readLoop_bound size evs [] data hchunks (by simpa [readImpl] using h)
  simpa using this

/-- C7 witness: a read of 3 bytes that got 2 bytes from one select round:
the bound theorem applies and 2 is at most 3 + 1023. -/
theorem c7_read_bound_witness :
    (∀ b, SelEvent.ready b ∈ [SelEvent.ready ['a', 'b']] → b.length ≤ 1024) ∧
    ['a', 'b'].length ≤ 3 + 1023 := by
  refine ⟨?_, ?_⟩
  · intro b hb
    simp only [List.mem_singleton, SelEvent.ready.injEq] at hb
    subst hb
    decide
  · exact c7_read_bound 3 [SelEvent.ready ['a', 'b']] ['a', 'b']
      (by intro b hb
          simp only [List.mem_singleton, SelEvent.ready.injEq] at hb
          subst hb
          decide)
      rfl

/-- C10: if every read of the listening flag taken between popping an entry
and invoking its callback returns false (which is the case for the whole
remainder of the run once the flag has been set to false, since only a later
startListening on a new consumer thread sets it back to true), then the
consumer loop of SerialListener::callback invokes no callback at all: entries
may still be popped, but the re-check of the flag discards each of them. -/
theorem c10_no_invoke_after_stop (iters : List CbIter)
    (h : ∀ it ∈ iters, it.flagAtInvoke = false) :
    callbackRun iters = [] := by
  induction iters with
  | nil => rfl
  | cons it rest ih =>
    have hit : it.flagAtInvoke = false := h it (by simp)
    have hrest : callbackRun rest = [] := ih fun x hx => h x (by simp [hx])
    unfold callbackRun
    cases hp : it.popped <;> simp [hit, hrest, hp]

/-- C10 witness: a concrete schedule in which the loop condition still read
true, an entry was popped, and the re-check read false: the theorem applies
and nothing is invoked. -/
theorem c10_no_invoke_after_stop_witness :
    (∀ it ∈ [CbIter.mk true (some (1, ['a'])) false], it.flagAtInvoke = false) ∧
    callbackRun [CbIter.mk true (some (1, ['a'])) false] = [] :=
  ⟨by decide, c10_no_invoke_after_stop [CbIter.mk true (some (1, ['a'])) false]
    (by decide)⟩
